import Mathlib

/-!
Formal model of the semantic-decoding hypothesis data structures
(`src/generators/data_structures.py`) and of the Continuation State Store and
Aggregation Engine operations described in the design document.

Modelling conventions:
  - 1-D `torch.Tensor` values holding token ids are `List Int`; tensors holding
    scores are `List Rat`; scalar score tensors are `Rat` (log-probabilities are
    real numbers; `Rat` keeps every operation decidable and executable).
  - Batched (2-D) tensors are lists of rows.
  - `past_key_values` (per-layer key/value caches) are lists of pairs of flat
    score lists; their contents are opaque to every operation modelled here.
  - Python operations that can raise are `Except`-valued; `PyError.typeError`
    models a Python `TypeError`.
-/

namespace SemanticDecoding

/-- Error raised by the Python runtime when an operation is applied to a value
whose type does not support it. -/
inductive PyError where
  | typeError
deriving DecidableEq

/-- Semantic tag attached to a decoded sub-sequence, mirroring the
`SemanticData` dataclass: unique grouping key, span offsets, semantic type,
merge count, free-form annotation, and the `has_semantic_data` flag whose
dataclass default is `True`. -/
structure SemanticData where
  unique_key : String
  start : Int
  «end» : Int
  _type : String
  amount_of_chunks : Option Int
  other : Option String
  has_semantic_data : Bool := true
deriving DecidableEq

/-- Pre-truncation mirror of a continuation, mirroring
`SyntacticHypothesisUnshortenedContinuationData` (the five tensor-like fields
of `SyntacticHypothesisData`, with no further nesting). -/
structure SyntacticHypothesisUnshortenedContinuationData where
  sequences : List Int
  transition_scores : List Rat
  last_beam_scores : Rat
  past_key_values : List (List Rat × List Rat)
  attention_mask : List Int
deriving DecidableEq

/-- Decoder-resumable sliced state for one hypothesis, mirroring
`SyntacticHypothesisContinuationData`: the five fields of
`SyntacticHypothesisData` plus the optional unshortened mirror. -/
structure SyntacticHypothesisContinuationData where
  sequences : List Int
  transition_scores : List Rat
  last_beam_scores : Rat
  past_key_values : List (List Rat × List Rat)
  attention_mask : List Int
  unshortened_data : Option SyntacticHypothesisUnshortenedContinuationData
deriving DecidableEq

/-- Metadata of a syntactic hypothesis (`SyntacticHypothesisMetaData`). -/
structure SyntacticHypothesisMetaData where
  tokens_shortened : Int
deriving DecidableEq

/-- One beam-search candidate, mirroring the `SyntacticHypothesis` dataclass.
The two completion flags carry the dataclass defaults `False`. -/
structure SyntacticHypothesis where
  aggregation_key : String
  semantic_source_hypothesis_idx : Int
  syntactic_source_hypothesis_idx : Int
  hypothesis_idx : Int
  path_score : Rat
  normalized_path_score : Rat
  semantic_data : SemanticData
  syntactic_hypothesis : SyntacticHypothesisContinuationData
  metadata : SyntacticHypothesisMetaData
  is_aggregation_key_complete : Bool := false
  is_normalized_path_score_calculated : Bool := false
deriving DecidableEq

/-- Raw batched model output, mirroring `OriginalContinuationData`: every
tensor-like field is batch-shaped (one row per active hypothesis). -/
structure OriginalContinuationData where
  sequences : List (List Int)
  scores : List (List Rat)
  transition_scores : List (List Rat)
  beam_indices : List (List Int)
  past_key_values : List (List Rat × List Rat)
  attention_mask : List (List Int)
  last_beam_scores : List Rat
deriving DecidableEq

/-- Group of syntactic hypotheses sharing an aggregation key, mirroring the
`SemanticHypothesis` dataclass. -/
structure SemanticHypothesis where
  aggregation_key : String
  score : Rat
  syntactic_hypotheses : List SyntacticHypothesis
  source_data : Option OriginalContinuationData
deriving DecidableEq

/-- Legacy continuation record, mirroring the `ContinuationData` dataclass. -/
structure ContinuationData where
  sequences : List Int
  transition_scores : List Rat
  last_beam_scores : Rat
  past_key_values : List (List Rat × List Rat)
  attention_mask : List Int
  original_data : Option OriginalContinuationData
deriving DecidableEq

/-- Python `len(·)` of a `SemanticHypothesis` (`__len__`): the number of member
syntactic hypotheses. -/
def SemanticHypothesis.lenOp (s : SemanticHypothesis) : Nat :=
  s.syntactic_hypotheses.length

/-- Python `a < b` on `SemanticHypothesis` (`__lt__`): compares the `score`
fields. -/
def SemanticHypothesis.ltOp (a b : SemanticHypothesis) : Bool :=
  a.score < b.score

/-- Python `a == b` on `SyntacticHypothesis` (`__eq__`): `torch.equal` on the
two continuations' `sequences` tensors, i.e. equality of the token lists
(same length and elementwise-identical entries). No other field is read. -/
def SyntacticHypothesis.eqOp (a b : SyntacticHypothesis) : Bool :=
  a.syntactic_hypothesis.sequences == b.syntactic_hypothesis.sequences

/-- Deterministic hash of a token list, modelling Python's
`hash(tuple(...))`: a fold mixing each token into the accumulator modulo a
Mersenne-style modulus. The exact mixing constants are irrelevant to every
property proved below; only that the result is a function of the list. -/
def seqTupleHash (xs : List Int) : Nat :=
  xs.foldl (fun acc x => (acc * 1000003 + (x.emod 2305843009213693951).toNat) % 2305843009213693951) 5381

/-- Python `hash(·)` of a `SyntacticHypothesis` (`__hash__`):
`hash(tuple(self.syntactic_hypothesis.sequences.flatten()))`. `sequences` is a
1-D tensor (shape `(, sequence_length)`), so `flatten()` returns the same
token list and the hash is a function of that list alone. -/
def SyntacticHypothesis.hashOp (h : SyntacticHypothesis) : Nat :=
  seqTupleHash h.syntactic_hypothesis.sequences

/-- Python `a < b` on `SyntacticHypothesis`: the dataclass does not define
`__lt__` (nor any other ordering method, and `order=True` is not set), so the
comparison falls through to Python's default object protocol, which raises
`TypeError` for every pair of instances. -/
def SyntacticHypothesis.ltOp (_a _b : SyntacticHypothesis) : Except PyError Bool :=
  .error .typeError

/-- Python value universe needed to model the legacy `ContinuationData.__len__`
body, where `len` is applied to an integer. -/
inductive PyVal where
  | int (n : Int)
  | list (xs : List PyVal)

/-- Python `len(·)` on a runtime value: defined on sequences, raises
`TypeError` on an integer. -/
def pyLen : PyVal → Except PyError Nat
  | .int _ => .error .typeError
  | .list xs => .ok xs.length

/-- Shape of a 1-D tensor: the singleton list holding its length, so that
`shape[-1]` is the length. -/
def shape1d (xs : List Int) : List Nat :=
  [xs.length]

/-- Python `len(·)` of a legacy `ContinuationData` (`__len__`): the body is
`len(self.sequences.shape[-1])`, applying `len` to the integer `shape[-1]`. -/
def ContinuationData.lenOp (c : ContinuationData) : Except PyError Nat :=
  pyLen (PyVal.int ((shape1d c.sequences).getLastD 0))

/-- Error kinds of the Continuation State Store. -/
inductive StoreError where
  | ShapeMismatch
  | InvalidLength
deriving DecidableEq

/-- Error kinds of the Aggregation Engine. -/
inductive GroupError where
  | IncompleteAggregationKey
  | EmptyInput
deriving DecidableEq

/-- View of a continuation as an unshortened record: the five tensor-like
fields, dropping the `unshortened_data` pointer (the unshortened record type
has no such field). -/
def toUnshortened (c : SyntacticHypothesisContinuationData) :
    SyntacticHypothesisUnshortenedContinuationData :=
  { sequences := c.sequences
    transition_scores := c.transition_scores
    last_beam_scores := c.last_beam_scores
    past_key_values := c.past_key_values
    attention_mask := c.attention_mask }

/-- View of an unshortened record as a continuation with no unshortened
mirror of its own. -/
def ofUnshortened (u : SyntacticHypothesisUnshortenedContinuationData) :
    SyntacticHypothesisContinuationData :=
  { sequences := u.sequences
    transition_scores := u.transition_scores
    last_beam_scores := u.last_beam_scores
    past_key_values := u.past_key_values
    attention_mask := u.attention_mask
    unshortened_data := none }

/-- Modelled from the spec: the Continuation State Store operation `shorten`
is not in `src/` (only the data types it acts on are). Per the design
document it truncates `sequences`, `transition_scores` and `attention_mask`
to `new_length`, moves the original full-length data into the `unshortened`
field (creating it if absent, overwriting an existing unshortened form), and
fails with `InvalidLength` if `new_length` exceeds the current length. -/
def shorten (c : SyntacticHypothesisContinuationData) (new_length : Nat) :
    Except StoreError SyntacticHypothesisContinuationData :=
  if new_length > c.sequences.length then
    .error .InvalidLength
  else
    .ok { sequences := c.sequences.take new_length
          transition_scores := c.transition_scores.take new_length
          last_beam_scores := c.last_beam_scores
          past_key_values := c.past_key_values
          attention_mask := c.attention_mask.take new_length
          unshortened_data := some (toUnshortened c) }

/-- Modelled from the spec: the Continuation State Store operation `restore`
is not in `src/`. Per the design document it returns the `unshortened` form
if present (as a continuation, whose own `unshortened_data` is necessarily
absent, the unshortened record type having no such field), else the input
unchanged. -/
def restore (c : SyntacticHypothesisContinuationData) :
    SyntacticHypothesisContinuationData :=
  match c.unshortened_data with
  | some u => ofUnshortened u
  | none => c

/-- Stable partition of hypotheses by `aggregation_key`: the partition of the
first hypothesis's key collects, in input order, every hypothesis carrying
that key; the remaining hypotheses are partitioned recursively, preserving
first-seen key order. -/
def partitionByKey : List SyntacticHypothesis → List (List SyntacticHypothesis)
  | [] => []
  | h :: t =>
      (h :: t.filter (fun x => x.aggregation_key == h.aggregation_key)) ::
        partitionByKey (t.filter (fun x => x.aggregation_key != h.aggregation_key))
termination_by l => l.length
decreasing_by
  simpa using Nat.lt_succ_of_le (List.length_filter_le _ t)

/-- Aggregate score of a partition: the maximum of the members'
`normalized_path_score` values (the design document fixes the aggregate as a
single scalar derived from member scores and names a simple maximum as an
acceptable declared policy; the maximum keeps the model executable). -/
def aggScore : List SyntacticHypothesis → Rat
  | [] => 0
  | h :: t => t.foldl (fun m x => max m x.normalized_path_score) h.normalized_path_score

/-- Semantic hypothesis built from one non-empty partition sharing a key. -/
def mkSem (p : List SyntacticHypothesis) : SemanticHypothesis :=
  { aggregation_key := (p.head?.map (fun h => h.aggregation_key)).getD ""
    score := aggScore p
    syntactic_hypotheses := p
    source_data := none }

/-- Singleton semantic hypothesis wrapping one hypothesis whose aggregation
key is incomplete. -/
def singletonSem (h : SyntacticHypothesis) : SemanticHypothesis :=
  { aggregation_key := h.aggregation_key
    score := h.normalized_path_score
    syntactic_hypotheses := [h]
    source_data := none }

/-- Semantic hypotheses produced from one partition: a partition whose
hypotheses all have an incomplete aggregation key yields one singleton
semantic hypothesis per member (incomplete keys are never merged); any other
partition is merged into a single semantic hypothesis. -/
def stepGroups (p : List SyntacticHypothesis) : List SemanticHypothesis :=
  if p.all (fun h => !h.is_aggregation_key_complete) then
    p.map singletonSem
  else
    [mkSem p]

/-- Semantic hypotheses of a list of partitions, in partition order. -/
def groupsOfPartitions : List (List SyntacticHypothesis) → List SemanticHypothesis
  | [] => []
  | p :: ps => stepGroups p ++ groupsOfPartitions ps

/-- Modelled from the spec: the Aggregation Engine operation `group` is not
in `src/` (only the `SyntacticHypothesis` and `SemanticHypothesis` types it
connects are). Per the design document it fails with `EmptyInput` on zero
hypotheses and otherwise partitions the input stably by `aggregation_key`,
emitting per-member singletons for partitions whose keys are all
incomplete. -/
def group (hyps : List SyntacticHypothesis) :
    Except GroupError (List SemanticHypothesis) :=
  if hyps.isEmpty then
    .error .EmptyInput
  else
    .ok (groupsOfPartitions (partitionByKey hyps))

/-- Concatenation of the member lists of a list of semantic hypotheses, in
order. -/
def membersUnion : List SemanticHypothesis → List SyntacticHypothesis
  | [] => []
  | g :: gs => g.syntactic_hypotheses ++ membersUnion gs

/-- First-seen deduplication of a key list: keeps the first occurrence of
every key, in order of first appearance. -/
def keepFirst : List String → List String
  | [] => []
  | k :: t => k :: keepFirst (t.filter (fun x => x != k))
termination_by l => l.length
decreasing_by
  simpa using Nat.lt_succ_of_le (List.length_filter_le _ t)

/-- Decidable equality on `Except`, used to evaluate the modelled fallible
operations at concrete inputs. -/
instance {ε α : Type} [DecidableEq ε] [DecidableEq α] :
    DecidableEq (Except ε α) := fun x y =>
  match x, y with
  | .ok a, .ok b =>
      if h : a = b then .isTrue (by rw [h]) else .isFalse (by simp [h])
  | .error e, .error f =>
      if h : e = f then .isTrue (by rw [h]) else .isFalse (by simp [h])
  | .ok _, .error _ => .isFalse (by simp)
  | .error _, .ok _ => .isFalse (by simp)

/-- Concrete semantic tag used by the concrete instances below. -/
def sampleSemanticData : SemanticData :=
  ⟨"e1", 0, 1, "ENT", none, none, true⟩

/-- Concrete continuation with token sequence `[1, 2, 3]`. -/
def sampleContA : SyntacticHypothesisContinuationData :=
  ⟨[1, 2, 3], [-1, -1, -1], -3, [], [1, 1, 1], none⟩

/-- Concrete continuation with the same token sequence as `sampleContA` but
different scores. -/
def sampleContB : SyntacticHypothesisContinuationData :=
  ⟨[1, 2, 3], [0, 0, 0], 0, [], [1, 1, 1], none⟩

/-- Concrete continuation with a different token sequence. -/
def sampleContC : SyntacticHypothesisContinuationData :=
  ⟨[9, 9], [0, 0], 0, [], [1, 1], none⟩

/-- Concrete syntactic hypothesis builder used by the concrete instances
below. -/
def sampleHyp (key : String) (cont : SyntacticHypothesisContinuationData)
    (ps : Rat) (complete : Bool) : SyntacticHypothesis :=
  ⟨key, 0, 0, 0, ps, ps, sampleSemanticData, cont, ⟨0⟩, complete, false⟩

/-- Concrete continuation that has already been shortened: its
`unshortened_data` mirror is present. -/
def sampleShortened : SyntacticHypothesisContinuationData :=
  ⟨[1], [-1], -1, [], [1], some ⟨[1, 2], [-1, -1], -2, [], [1, 1]⟩⟩

/-- Concrete non-empty hypothesis list with two distinct aggregation keys,
the first one recurring. -/
def sampleList : List SyntacticHypothesis :=
  [sampleHyp "0-e1" sampleContA (-1) true,
   sampleHyp "1-e2" sampleContC (-2) true,
   sampleHyp "0-e1" sampleContB 0 true]

/-- Every partition produced by `partitionByKey` is non-empty, its head key is
its key, and all its members carry that key. -/
theorem partition_uniform : ∀ (l p : List SyntacticHypothesis),
    p ∈ partitionByKey l →
    ∃ k, p.head?.map (fun h => h.aggregation_key) = some k ∧
      ∀ m ∈ p, m.aggregation_key = k
  | [], p, hp => by simp [partitionByKey] at hp
  | h :: t, p, hp => by
    simp only [partitionByKey, List.mem_cons] at hp
    rcases hp with hp | hp
    · subst hp
      refine ⟨h.aggregation_key, rfl, ?_⟩
      intro m hm
      rcases List.mem_cons.mp hm with hm | hm
      · rw [hm]
      · have := List.of_mem_filter hm
        simpa using this
    · exact partition_uniform (t.filter fun x => x.aggregation_key != h.aggregation_key) p hp
termination_by l => l.length
decreasing_by simpa using Nat.lt_succ_of_le (List.length_filter_le _ t)

/-- Every partition produced by `partitionByKey` is an order-preserving
subsequence of the input. -/
theorem partition_sublist : ∀ (l p : List SyntacticHypothesis),
    p ∈ partitionByKey l → p.Sublist l
  | [], p, hp => by simp [partitionByKey] at hp
  | h :: t, p, hp => by
    simp only [partitionByKey, List.mem_cons] at hp
    rcases hp with hp | hp
    · subst hp
      exact (List.filter_sublist t).cons₂ h
    · have ih := partition_sublist (t.filter fun x => x.aggregation_key != h.aggregation_key) p hp
      exact ih.trans ((List.filter_sublist t).trans (List.sublist_cons_self h t))
termination_by l => l.length
decreasing_by simpa using Nat.lt_succ_of_le (List.length_filter_le _ t)

/-- Concatenating the member lists of per-member singleton semantic
hypotheses gives back the member list. -/
theorem membersUnion_map_singleton :
    ∀ (p : List SyntacticHypothesis), membersUnion (p.map singletonSem) = p
  | [] => rfl
  | a :: t => by
    simpa [membersUnion, singletonSem] using membersUnion_map_singleton t

/-- Concatenating the member lists of the semantic hypotheses built from one
partition gives back the partition. -/
theorem membersUnion_stepGroups (p : List SyntacticHypothesis) :
    membersUnion (stepGroups p) = p := by
  unfold stepGroups
  split
  · exact membersUnion_map_singleton p
  · simp [membersUnion, mkSem]

/-- `membersUnion` distributes over list concatenation. -/
theorem membersUnion_append (gs₁ gs₂ : List SemanticHypothesis) :
    membersUnion (gs₁ ++ gs₂) = membersUnion gs₁ ++ membersUnion gs₂ := by
  induction gs₁ with
  | nil => rfl
  | cons g gs ih => simp [membersUnion, ih]

/-- The members of all semantic hypotheses produced from the stable partition
of `l` are a permutation of `l`: no hypothesis is dropped or duplicated. -/
theorem groups_perm : ∀ (l : List SyntacticHypothesis),
    (membersUnion (groupsOfPartitions (partitionByKey l))).Perm l
  | [] => by simp [partitionByKey, groupsOfPartitions, membersUnion]
  | h :: t => by
    simp only [partitionByKey, groupsOfPartitions]
    rw [membersUnion_append, membersUnion_stepGroups]
    have ih := groups_perm (t.filter fun x => x.aggregation_key != h.aggregation_key)
    have step := ih.append_left
      (h :: t.filter (fun x => x.aggregation_key == h.aggregation_key))
    refine step.trans ?_
    exact (List.filter_append_perm (fun x => x.aggregation_key == h.aggregation_key) t).cons h
termination_by l => l.length
decreasing_by simpa using Nat.lt_succ_of_le (List.length_filter_le _ t)

/-- Facts about the semantic hypotheses built from one uniform partition:
every member carries the group's key, the group's key is the partition key,
the member list is non-empty and is an order-preserving subsequence of the
partition. -/
theorem stepGroups_facts (p : List SyntacticHypothesis) (k : String)
    (hk : p.head?.map (fun h => h.aggregation_key) = some k)
    (hu : ∀ m ∈ p, m.aggregation_key = k) :
    ∀ g ∈ stepGroups p,
      (∀ m ∈ g.syntactic_hypotheses, m.aggregation_key = g.aggregation_key) ∧
      g.aggregation_key = k ∧ g.syntactic_hypotheses ≠ [] ∧
      g.syntactic_hypotheses.Sublist p := by
  intro g hg
  unfold stepGroups at hg
  split at hg
  · rcases List.mem_map.mp hg with ⟨m, hm, hgm⟩
    subst hgm
    refine ⟨?_, hu m hm, by simp [singletonSem], ?_⟩
    · intro x hx
      simp only [singletonSem, List.mem_singleton] at hx
      subst hx
      rfl
    · simpa [singletonSem] using List.singleton_sublist.mpr hm
  · rcases List.mem_singleton.mp hg with rfl
    cases p with
    | nil => simp at hk
    | cons h t =>
      have hk2 : h.aggregation_key = k := by simpa using hk
      have hkey : (mkSem (h :: t)).aggregation_key = k := by simp [mkSem, hk2]
      refine ⟨?_, hkey, by simp [mkSem], by simp [mkSem]⟩
      intro m hm
      simp only [mkSem] at hm
      rw [hkey, hu m hm]

/-- Every semantic hypothesis produced from a list of partitions comes from
one of the partitions. -/
theorem mem_groupsOfPartitions {g : SemanticHypothesis} :
    ∀ (ps : List (List SyntacticHypothesis)), g ∈ groupsOfPartitions ps →
      ∃ p ∈ ps, g ∈ stepGroups p
  | [], hg => by simp [groupsOfPartitions] at hg
  | p :: ps, hg => by
    simp only [groupsOfPartitions, List.mem_append] at hg
    rcases hg with hg | hg
    · exact ⟨p, List.mem_cons_self p ps, hg⟩
    · obtain ⟨q, hq, hgq⟩ := mem_groupsOfPartitions ps hg
      exact ⟨q, List.mem_cons_of_mem _ hq, hgq⟩

/-- Facts about every semantic hypothesis produced by grouping `l`: members
share the group's key, the member list is non-empty, it is an
order-preserving subsequence of `l`, and the group's key is the key of one of
the hypotheses of `l`. -/
theorem groups_facts : ∀ (l : List SyntacticHypothesis),
    ∀ g ∈ groupsOfPartitions (partitionByKey l),
      (∀ m ∈ g.syntactic_hypotheses, m.aggregation_key = g.aggregation_key) ∧
      g.syntactic_hypotheses ≠ [] ∧ g.syntactic_hypotheses.Sublist l ∧
      ∃ m ∈ l, g.aggregation_key = m.aggregation_key := by
  intro l g hg
  obtain ⟨p, hp, hgp⟩ := mem_groupsOfPartitions (partitionByKey l) hg
  obtain ⟨k, hk, hu⟩ := partition_uniform l p hp
  obtain ⟨hshare, hkey, hne, hsub⟩ := stepGroups_facts p k hk hu g hgp
  have hpl : p.Sublist l := partition_sublist l p hp
  refine ⟨hshare, hne, hsub.trans hpl, ?_⟩
  cases hm : g.syntactic_hypotheses with
  | nil => exact absurd hm hne
  | cons m ms =>
    refine ⟨m, ?_, ?_⟩
    · exact (hsub.trans hpl).subset (by rw [hm]; exact List.mem_cons_self m ms)
    · have := hshare m (by rw [hm]; exact List.mem_cons_self m ms)
      exact this.symm

/-- Filtering hypotheses on their key and then projecting to keys equals
projecting to keys and then filtering. -/
theorem map_key_filter (t : List SyntacticHypothesis) (k : String) :
    (t.filter fun x => x.aggregation_key != k).map (fun x => x.aggregation_key) =
      (t.map fun x => x.aggregation_key).filter (fun s => s != k) := by
  induction t with
  | nil => rfl
  | cons a t ih =>
    cases hk : (a.aggregation_key != k) <;>
      simp [List.filter_cons, hk, ih]

/-- First-seen deduplication of a non-empty constant block followed by keys
all different from the block's key: the block collapses to its key and the
tail is left untouched. -/
theorem keepFirst_append_const (k : String) (xs ys : List String)
    (hxs : xs ≠ []) (hall : ∀ x ∈ xs, x = k) (hys : ∀ y ∈ ys, y ≠ k) :
    keepFirst (xs ++ ys) = k :: keepFirst ys := by
  cases xs with
  | nil => exact absurd rfl hxs
  | cons x xs =>
    have hx : x = k := hall x (List.mem_cons_self x xs)
    subst hx
    simp only [List.cons_append, keepFirst]
    congr 1
    have hfilter : (xs ++ ys).filter (fun s => s != x) = ys := by
      rw [List.filter_append]
      have h1 : xs.filter (fun s => s != x) = [] := by
        simp only [List.filter_eq_nil_iff]
        intro a ha
        simp [hall a (List.mem_cons_of_mem x ha)]
      have h2 : ys.filter (fun s => s != x) = ys := by
        apply List.filter_eq_self.mpr
        intro a ha
        simpa using hys a ha
      rw [h1, h2, List.nil_append]
    rw [hfilter]

/-- Grouping a non-empty partition always yields at least one semantic
hypothesis. -/
theorem stepGroups_ne_nil (p : List SyntacticHypothesis) (hp : p ≠ []) :
    stepGroups p ≠ [] := by
  unfold stepGroups
  split
  · simpa using hp
  · simp

/-- Stability of the grouping: the first-seen order of the aggregation keys
of the produced semantic hypotheses equals the first-seen order of the
aggregation keys of the input hypotheses. -/
theorem groups_keys_keepFirst : ∀ (l : List SyntacticHypothesis),
    keepFirst ((groupsOfPartitions (partitionByKey l)).map fun g => g.aggregation_key) =
      keepFirst (l.map fun h => h.aggregation_key)
  | [] => by simp [partitionByKey, groupsOfPartitions, keepFirst]
  | h :: t => by
    have ih := groups_keys_keepFirst (t.filter fun x => x.aggregation_key != h.aggregation_key)
    simp only [partitionByKey, groupsOfPartitions, List.map_append]
    have huni : ∀ m ∈ h :: t.filter (fun x => x.aggregation_key == h.aggregation_key),
        m.aggregation_key = h.aggregation_key := by
      intro m hm
      rcases List.mem_cons.mp hm with hm | hm
      · rw [hm]
      · simpa using List.of_mem_filter hm
    have hleft := keepFirst_append_const h.aggregation_key
      ((stepGroups (h :: t.filter fun x => x.aggregation_key == h.aggregation_key)).map
        fun g => g.aggregation_key)
      ((groupsOfPartitions (partitionByKey
        (t.filter fun x => x.aggregation_key != h.aggregation_key))).map
        fun g => g.aggregation_key)
      (by
        simp only [ne_eq, List.map_eq_nil_iff]
        exact stepGroups_ne_nil _ (by simp))
      (by
        intro x hx
        rcases List.mem_map.mp hx with ⟨g, hg, hgx⟩
        obtain ⟨_, hkey, _, _⟩ := stepGroups_facts _ h.aggregation_key (by simp) huni g hg
        rw [← hgx, hkey])
      (by
        intro y hy
        rcases List.mem_map.mp hy with ⟨g, hg, hgy⟩
        obtain ⟨_, _, _, m, hm, hkm⟩ := groups_facts _ g hg
        have hmf := List.of_mem_filter hm
        rw [← hgy, hkm]
        simpa using hmf)
    rw [hleft, ih]
    have hright : keepFirst ((h :: t).map fun x => x.aggregation_key) =
        h.aggregation_key ::
          keepFirst ((t.filter fun x => x.aggregation_key != h.aggregation_key).map
            fun x => x.aggregation_key) := by
      simp only [List.map_cons, keepFirst]
      rw [map_key_filter]
    rw [hright]
termination_by l => l.length
decreasing_by simpa using Nat.lt_succ_of_le (List.length_filter_le _ t)

/-- C1: grouping a non-empty ordered hypothesis list partitions it exactly:
the operation succeeds, the concatenation of all produced member lists is a
permutation of the input (nothing dropped or duplicated), every member of a
produced semantic hypothesis carries that hypothesis's aggregation key, each
member list preserves the input order (it is an order-preserving subsequence
of the input), and the first-seen order of the produced aggregation keys
equals the first-seen order of the input keys. -/
theorem c1_group_partitions_exactly (H : List SyntacticHypothesis)
    (hne : H ≠ []) :
    ∃ out, group H = Except.ok out ∧
      (membersUnion out).Perm H ∧
      (∀ g ∈ out, ∀ m ∈ g.syntactic_hypotheses,
        m.aggregation_key = g.aggregation_key) ∧
      (∀ g ∈ out, g.syntactic_hypotheses.Sublist H) ∧
      keepFirst (out.map fun g => g.aggregation_key) =
        keepFirst (H.map fun h => h.aggregation_key) := by
  refine ⟨groupsOfPartitions (partitionByKey H), ?_, groups_perm H,
    fun g hg => (groups_facts H g hg).1,
    fun g hg => (groups_facts H g hg).2.2.1,
    groups_keys_keepFirst H⟩
  unfold group
  rw [if_neg (by simpa [List.isEmpty_iff] using hne)]

/-- C1 witness: the partition facts evaluated at a concrete three-hypothesis
list with two distinct aggregation keys. -/
theorem c1_witness :
    sampleList ≠ [] ∧
      ∃ out, group sampleList = Except.ok out ∧
        (membersUnion out).Perm sampleList ∧
        (∀ g ∈ out, ∀ m ∈ g.syntactic_hypotheses,
          m.aggregation_key = g.aggregation_key) ∧
        (∀ g ∈ out, g.syntactic_hypotheses.Sublist sampleList) ∧
        keepFirst (out.map fun g => g.aggregation_key) =
          keepFirst (sampleList.map fun h => h.aggregation_key) :=
  ⟨by simp [sampleList], c1_group_partitions_exactly sampleList (by simp [sampleList])⟩

/-- C5: grouping fails with `EmptyInput` exactly on zero hypotheses: the
empty input is rejected with the error rather than an empty result, and
every non-empty input produces a successful result. -/
theorem c5_group_empty_input :
    group ([] : List SyntacticHypothesis) = Except.error GroupError.EmptyInput ∧
      ∀ H : List SyntacticHypothesis, H ≠ [] →
        ∃ out, group H = Except.ok out := by
  refine ⟨rfl, ?_⟩
  intro H h
  refine ⟨groupsOfPartitions (partitionByKey H), ?_⟩
  unfold group
  rw [if_neg (by simpa [List.isEmpty_iff] using h)]

/-- C5 witness: the non-empty branch evaluated at a concrete singleton
hypothesis list. -/
theorem c5_witness :
    [sampleHyp "0-e1" sampleContA (-1) true] ≠ [] ∧
      ∃ out, group [sampleHyp "0-e1" sampleContA (-1) true] = Except.ok out :=
  ⟨by simp, c5_group_empty_input.2 [sampleHyp "0-e1" sampleContA (-1) true] (by simp)⟩

/-- C2: two `SyntacticHypothesis` instances compare equal under `__eq__`
exactly when their continuations' `sequences` token lists are element-wise
identical; no other field (path score, provenance, flags) influences the
result, so instances with identical sequences and different scores compare
equal and instances with different sequences never do. -/
theorem c2_syntactic_eq_iff_sequences (a b : SyntacticHypothesis) :
    SyntacticHypothesis.eqOp a b = true ↔
      a.syntactic_hypothesis.sequences = b.syntactic_hypothesis.sequences := by
  simp [SyntacticHypothesis.eqOp]

/-- C3 counterexample: for two concrete hypotheses whose `path_score` fields
satisfy the strict inequality, evaluating `a < b` does not return `True`; it
raises `TypeError`, because `SyntacticHypothesis` defines no ordering
method. -/
theorem c3_lt_counterexample :
    (sampleHyp "0-e1" sampleContA (-1) true).path_score <
        (sampleHyp "0-e1" sampleContB 0 true).path_score ∧
      SyntacticHypothesis.ltOp (sampleHyp "0-e1" sampleContA (-1) true)
          (sampleHyp "0-e1" sampleContB 0 true) ≠
        Except.ok true := by
  exact ⟨by decide, by decide⟩

/-- C3 amended: `SyntacticHypothesis` defines no less-than comparison at all:
for every two instances, evaluating `a < b` raises `TypeError`, regardless of
the `path_score` fields (only `SemanticHypothesis` is ordered, by `score`). -/
theorem c3_syntactic_lt_raises (a b : SyntacticHypothesis) :
    SyntacticHypothesis.ltOp a b = Except.error PyError.typeError := rfl

/-- C4 counterexample: for a concrete continuation that was already shortened
(`unshortened_data` present) and the valid length `1`, restoring the result
of `shorten` does not reproduce the input exactly: the restored value carries
no `unshortened_data` mirror while the input did. -/
theorem c4_restore_shorten_counterexample :
    1 ≤ sampleShortened.sequences.length ∧
      (shorten sampleShortened 1).map restore ≠ Except.ok sampleShortened := by
  exact ⟨by decide, by decide⟩

/-- C4 amended: for every continuation `c` that is not itself shortened
(`unshortened_data` absent) and every valid `n ≤ len(c.sequences)`,
`restore (shorten c n)` reproduces `c` exactly; for every continuation,
`restore` is idempotent; and restoring a continuation with no unshortened
form returns the input unchanged. For an already-shortened input, restoring
after `shorten` returns the five data fields of the input but with the
`unshortened_data` mirror cleared, not the input itself. -/
theorem c4_restore_shorten (c : SyntacticHypothesisContinuationData) (n : Nat) :
    (c.unshortened_data = none → n ≤ c.sequences.length →
      (shorten c n).map restore = Except.ok c) ∧
    restore (restore c) = restore c ∧
    (c.unshortened_data = none → restore c = c) := by
  refine ⟨?_, ?_, ?_⟩
  · intro h hn
    obtain ⟨s, ts, lbs, pkv, am, ud⟩ := c
    simp only at h hn
    subst h
    simp only [shorten, gt_iff_lt]
    rw [if_neg (by simpa using hn)]
    simp [Except.map, restore, toUnshortened, ofUnshortened]
  · unfold restore
    cases h : c.unshortened_data with
    | none => rw [h]
    | some u => simp [ofUnshortened]
  · intro h
    unfold restore
    rw [h]

/-- C4 witness: the amended round trip evaluated at a concrete unshortened
continuation and the valid length `2`. -/
theorem c4_witness :
    sampleContA.unshortened_data = none ∧ 2 ≤ sampleContA.sequences.length ∧
      (shorten sampleContA 2).map restore = Except.ok sampleContA :=
  ⟨rfl, by decide, (c4_restore_shorten sampleContA 2).1 rfl (by decide)⟩

/-- C6: `SemanticHypothesis.__lt__` holds exactly when the `score` fields
satisfy the strict inequality, and `len` of a semantic hypothesis is the
number of its member syntactic hypotheses. -/
theorem c6_semantic_order_and_len (a b : SemanticHypothesis) :
    (SemanticHypothesis.ltOp a b = true ↔ a.score < b.score) ∧
      SemanticHypothesis.lenOp a = a.syntactic_hypotheses.length := by
  exact ⟨by simp [SemanticHypothesis.ltOp], rfl⟩

/-- C7: a `SemanticData` value constructed without an explicit
`has_semantic_data` argument carries the dataclass default `True`. -/
theorem c7_semantic_data_default (k : String) (s e : Int) (t : String)
    (c : Option Int) (o : Option String) :
    ({ unique_key := k, start := s, «end» := e, _type := t,
       amount_of_chunks := c, other := o : SemanticData }).has_semantic_data
      = true := rfl

/-- C8: a `SyntacticHypothesis` constructed without explicit flag arguments
starts in the Created state: `is_aggregation_key_complete` and
`is_normalized_path_score_calculated` both carry the dataclass default
`False`. -/
theorem c8_created_state_defaults (key : String) (sem_idx syn_idx hyp_idx : Int)
    (ps nps : Rat) (sd : SemanticData)
    (cont : SyntacticHypothesisContinuationData)
    (md : SyntacticHypothesisMetaData) :
    ({ aggregation_key := key, semantic_source_hypothesis_idx := sem_idx,
       syntactic_source_hypothesis_idx := syn_idx, hypothesis_idx := hyp_idx,
       path_score := ps, normalized_path_score := nps, semantic_data := sd,
       syntactic_hypothesis := cont, metadata := md :
       SyntacticHypothesis }).is_aggregation_key_complete = false ∧
    ({ aggregation_key := key, semantic_source_hypothesis_idx := sem_idx,
       syntactic_source_hypothesis_idx := syn_idx, hypothesis_idx := hyp_idx,
       path_score := ps, normalized_path_score := nps, semantic_data := sd,
       syntactic_hypothesis := cont, metadata := md :
       SyntacticHypothesis }).is_normalized_path_score_calculated = false :=
  ⟨rfl, rfl⟩

/-- C9: the hash of a `SyntacticHypothesis` is a function of its flattened
token sequence alone, so hashing is consistent with `__eq__`: equal
hypotheses have equal hashes. -/
theorem c9_hash_consistent_with_eq (a b : SyntacticHypothesis)
    (h : SyntacticHypothesis.eqOp a b = true) :
    SyntacticHypothesis.hashOp a = SyntacticHypothesis.hashOp b := by
  unfold SyntacticHypothesis.hashOp
  have hseq : a.syntactic_hypothesis.sequences = b.syntactic_hypothesis.sequences := by
    simpa [SyntacticHypothesis.eqOp] using h
  rw [hseq]

/-- C9 witness: two concrete hypotheses with identical sequences and
different scores are equal under `__eq__` and receive the same hash. -/
theorem c9_witness :
    SyntacticHypothesis.eqOp (sampleHyp "0-e1" sampleContA (-1) true)
        (sampleHyp "1-e1" sampleContB 0 false) = true ∧
      SyntacticHypothesis.hashOp (sampleHyp "0-e1" sampleContA (-1) true) =
        SyntacticHypothesis.hashOp (sampleHyp "1-e1" sampleContB 0 false) :=
  ⟨by decide, c9_hash_consistent_with_eq _ _ (by decide)⟩

/-- C10: evaluating `len` on a legacy `ContinuationData` value never returns
a number: the body applies `len` to the integer `sequences.shape[-1]`, which
raises `TypeError` on every input. -/
theorem c10_legacy_len_type_error (c : ContinuationData) :
    ContinuationData.lenOp c = Except.error PyError.typeError := rfl

end SemanticDecoding
